import Mathlib

/-!
Verification development for the pizza oven service.

The definitions below are a shallow embedding of the Go sources:
* `pkg/cache` (the on-disk git-repo LRU cache: `GitRepoLRUCache`,
  `GitRepoFilePath`, `Get`, `Put`, `tryEvict`),
* `pkg/server/server.go` (`handleRequest`, `processRepository`),
* `pkg/database/handler.go` (`GetLastCommit`),
* `pkg/github/github_client.go` (`FilterArchivedRepos`).

Mutable structures become explicit state passing; filesystem and statfs
effects become an explicit disk value plus an environment function; the
per-entry mutexes and the cache mutex only serialize concurrent access in
Go, so the sequential operational model elides them.
-/

namespace Pizza

/-! ### The cache data model (`pkg/cache`)

`GitRepoFilePath` is the element type of the LRU cache: a key (the remote
URL) and the on-disk path of the clone.  The Go struct also carries a
`sync.Mutex`; locks do not appear in the sequential model. -/

structure GitRepoFilePath where
  key : String
  path : String
deriving DecidableEq, Repr

/-- One directory on disk: its path and whether `git.PlainOpen` succeeds on
it (i.e. whether it holds a valid repository). -/
structure DiskDir where
  path : String
  validRepo : Bool
deriving DecidableEq, Repr

/-- The on-disk state: the set of directories, as a list. -/
abbrev Disk := List DiskDir

/-- Success of `os.Stat(p)`: the directory exists. -/
def diskHas (d : Disk) (p : String) : Bool :=
  d.any (fun e => e.path == p)

/-- Success of `git.PlainOpen(p)`: the directory exists and holds a valid
repository. -/
def diskOpens (d : Disk) (p : String) : Bool :=
  d.any (fun e => e.path == p && e.validRepo)

/-- Containment test for subtree deletion: `q` is `root` itself or lies
inside `root`'s subtree (its path extends `root` past a separator). -/
def isUnderPath (root q : String) : Bool :=
  q == root || (root ++ "/").data.isPrefixOf q.data

/-- Effect of `os.RemoveAll(p)`: `p` and its entire subtree are gone
afterwards — every directory whose path is `p` itself or lies under
`p/`. -/
def diskRemoveAll (d : Disk) (p : String) : Disk :=
  d.filter (fun e => !(isUnderPath p e.path))

/-- A successful `git.PlainClone` into `p` leaves a valid repository there. -/
def diskMarkValid (d : Disk) (p : String) : Disk :=
  d.map (fun e => if e.path == p then { e with validRepo := true } else e)

/-- The paths present on disk. -/
def diskPaths (d : Disk) : List String := d.map DiskDir.path

/-- The configuration of `GitRepoLRUCache`: the cache directory, the
minimum free disk in Gb, and the never-evict (pinned) URL set
(`neverEvictRepos`, a Go `map[string]bool` used as a set). -/
structure CacheConfig where
  dir : String
  minFreeDiskGb : Nat
  neverEvictRepos : List String

/-- The budget `minFreeDiskGb * 1024 * 1024 * 1024`, the "lazy convert gb ->
mb -> kb -> bytes" in both `NewGitRepoLRUCache` and `tryEvict`. -/
def CacheConfig.minFreeBytes (c : CacheConfig) : Nat :=
  c.minFreeDiskGb * 1024 * 1024 * 1024

/-- The mutable state of `GitRepoLRUCache` together with the disk:
* `dll` is the doubly linked list, front (most recently used) first; the
  Go `c.dll.Back()` is the last element, and `node.Next()` moves toward
  the back, so the back node's `Next()` is nil;
* `hm` is the key set of the hashmap `map[string]*list.Element`; the value
  attached to a key is the unique `dll` node holding that key (the
  bijection between the two is exactly the invariant studied below);
* `disk` is the on-disk state. -/
structure CacheState where
  dll : List GitRepoFilePath
  hm : List String
  disk : Disk
deriving DecidableEq, Repr

/-- The keys of the ordered sequence, front first. -/
def dllKeys (s : CacheState) : List String := s.dll.map GitRepoFilePath.key

/-- The filesystem environment: `statfs` reports the available bytes
(`stat.Bavail * uint64(stat.Bsize)`) as a function of the current disk
contents; `none` models a failing `statfs` call. -/
structure DiskEnv where
  statfs : Disk → Option Nat

/-- The state after evicting `victim`, the back node of the sequence:
`os.RemoveAll(victim.path)`, `delete(c.hm, victim.key)`,
`c.dll.Remove(victim)`. -/
def evictVictim (s : CacheState) (victim : GitRepoFilePath) : CacheState :=
  { dll := s.dll.dropLast
    hm := s.hm.erase victim.key
    disk := diskRemoveAll s.disk victim.path }

/-- The eviction loop of `tryEvict` (`for stat.Bavail*uint64(stat.Bsize) <=
minFreeBytes { ... }`), with `free` the most recent statfs result.  Each
iteration:
* breaks when the cache is empty (`c.dll.Back() == nil`);
* sets `lruNode := c.dll.Back()` and runs
  `for _, isInNeverEvictRepos := c.neverEvictRepos[lruNode.key];
  isInNeverEvictRepos; { lruNode = lruNode.Next(); if lruNode == nil {
  return error } }`.  The loop variable `isInNeverEvictRepos` is bound
  once and never reassigned in the body, and the back node's `Next()` is
  already nil, so when the back node's key is pinned the body runs once,
  `lruNode` becomes nil, and the "Disk space completely occupied by
  neverEvictRepos" error is returned; when it is not pinned the loop never
  starts and the back node is the victim;
* evicts the victim and recomputes the free bytes via statfs, erroring if
  the recomputation fails.
The first component is the returned error, if any; the second is the cache
state when `tryEvict` returns (evictions performed before an error
persist, as in Go). -/
def tryEvictLoop (env : DiskEnv) (c : CacheConfig) (s : CacheState) (free : Nat) :
    Option String × CacheState :=
  if free ≤ c.minFreeBytes then
    match h : s.dll with
    | [] => (none, s)
    | a :: rest =>
      let victim := (a :: rest).getLast (by simp)
      if c.neverEvictRepos.contains victim.key then
        (some "Disk space completely occupied by neverEvictRepos, could not evict", s)
      else
        let s' := evictVictim s victim
        match env.statfs s'.disk with
        | none => (some "could not re-calculate disk space using statfs", s')
        | some free' => tryEvictLoop env c s' free'
  else (none, s)
termination_by s.dll.length
decreasing_by
  simp [evictVictim, h, List.length_dropLast]

/-- The operation `tryEvict`: compute the available bytes via statfs, then
run the eviction loop. -/
def tryEvict (env : DiskEnv) (c : CacheConfig) (s : CacheState) :
    Option String × CacheState :=
  match env.statfs s.disk with
  | none => (some "could not calculate disk space using statfs", s)
  | some free => tryEvictLoop env c s free

/-- The Go call `c.dll.MoveToFront(element)` where `element` is the node
found for `key`: the first node holding `key` moves to the front. -/
def moveToFront (key : String) (dll : List GitRepoFilePath) : List GitRepoFilePath :=
  match dll.find? (fun e => e.key == key) with
  | none => dll
  | some e => e :: dll.eraseP (fun e => e.key == key)

/-- The operation `Get`: on hit (`key` in the hashmap) move the node to the
front, lock it, and return it; on miss return nil without mutation.  The hashmap's
value for `key` is the `dll` node holding `key`; in states satisfying the
bijection invariant `find?` retrieves exactly that node. -/
def get (s : CacheState) (key : String) : Option GitRepoFilePath × CacheState :=
  if s.hm.contains key then
    (s.dll.find? (fun e => e.key == key), { s with dll := moveToFront key s.dll })
  else
    (none, s)

/-- The filesystem calls `Put` may perform after the cache bookkeeping,
in order. -/
inductive DiskAction where
  | stat (path : String)
  | plainOpen (path : String)
  | removeAll (path : String)
  | mkdirAll (path : String)
  | plainClone (url : String) (path : String)
deriving DecidableEq, Repr

/-- The path `filepath.Join(c.dir, key)`.  Go's `Join` additionally runs
`Clean` on the result (collapsing duplicate separators and dot segments),
which the plain concatenation here does not reproduce: the value is used
only as the name of the entry's target directory, and no development
below relies on distinct keys yielding distinct paths. -/
def pathOf (dir key : String) : String := dir ++ "/" ++ key

/-- Result of one `Put` call: the returned value (`(*GitRepoFilePath,
error)` in Go), the cache/disk state on return, and the trace of
filesystem calls performed on the entry's path. -/
structure PutResult where
  result : Except String GitRepoFilePath
  state : CacheState
  trace : List DiskAction
deriving Repr

/-- The tail of the `Put` miss path once cloning is required: `os.MkdirAll`
(outcome given by `mkdirOk`) then `git.PlainClone` (outcome given by
`cloneOk`).  On either failure the element's lock is released and the
error returned; the cache entry stays in `hm`/`dll`, and the directory
created by `MkdirAll` stays on disk. -/
def putCloneTail (s : CacheState) (element : GitRepoFilePath)
    (mkdirOk cloneOk : Bool) (tr : List DiskAction) : PutResult :=
  if mkdirOk then
    let s4 : CacheState := { s with disk := ⟨element.path, false⟩ :: s.disk }
    if cloneOk then
      { result := .ok element
        state := { s4 with disk := diskMarkValid s4.disk element.path }
        trace := tr ++ [.mkdirAll element.path, .plainClone element.key element.path] }
    else
      { result := .error "could not clone into cache directory"
        state := s4
        trace := tr ++ [.mkdirAll element.path, .plainClone element.key element.path] }
  else
    { result := .error "could not create directory in cache"
      state := s
      trace := tr ++ [.mkdirAll element.path] }

/-- The operation `Put`:
* hit: `MoveToFront`, lock the element, early return — no filesystem call;
* miss: `tryEvict` (surfacing its error), create the element with
  `path = filepath.Join(c.dir, key)`, insert it at the front of the
  sequence and into the hashmap, then (after unlocking the cache)
  `os.Stat` the path; if the directory exists and `git.PlainOpen`
  succeeds, adopt it and return; if it exists but does not open,
  `os.RemoveAll` it and fall through to `MkdirAll` + `PlainClone`.
The `mkdirOk`/`cloneOk` flags are the environment's outcomes for the two
fallible filesystem/network calls of this invocation. -/
def put (env : DiskEnv) (c : CacheConfig) (s : CacheState) (key : String)
    (mkdirOk cloneOk : Bool) : PutResult :=
  if s.hm.contains key then
    { result :=
        match s.dll.find? (fun e => e.key == key) with
        | some e => .ok e
        | none => .error "dangling hashmap element"
      state := { s with dll := moveToFront key s.dll }
      trace := [] }
  else
    match tryEvict env c s with
    | (some e, s1) =>
      { result := .error ("could not evict repos from cache: " ++ e)
        state := s1
        trace := [] }
    | (none, s1) =>
      let pathKey := pathOf c.dir key
      let element : GitRepoFilePath := { key := key, path := pathKey }
      let s2 : CacheState := { s1 with hm := key :: s1.hm, dll := element :: s1.dll }
      if diskHas s2.disk pathKey then
        if diskOpens s2.disk pathKey then
          { result := .ok element
            state := s2
            trace := [.stat pathKey, .plainOpen pathKey] }
        else
          putCloneTail { s2 with disk := diskRemoveAll s2.disk pathKey } element
            mkdirOk cloneOk [.stat pathKey, .plainOpen pathKey, .removeAll pathKey]
      else
        putCloneTail s2 element mkdirOk cloneOk [.stat pathKey]

/-- One cache operation of a client sequence.  `put` carries the
environment outcomes of its fallible mkdir/clone calls. -/
inductive CacheOp where
  | get (key : String)
  | put (key : String) (mkdirOk cloneOk : Bool)
  | evict

/-- The state after one operation. -/
def runOp (env : DiskEnv) (c : CacheConfig) (s : CacheState) : CacheOp → CacheState
  | .get k => (get s k).2
  | .put k mk cl => (Pizza.put env c s k mk cl).state
  | .evict => (tryEvict env c s).2

/-- The state after a finite sequence of operations. -/
def runOps (env : DiskEnv) (c : CacheConfig) (ops : List CacheOp) (s : CacheState) :
    CacheState :=
  ops.foldl (runOp env c) s

/-- The bijection invariant between the hashmap and the ordered sequence:
the sequence holds each key at most once, and the hashmap's key set is in
bijection with the sequence's nodes (as nodup lists, a permutation). -/
def bijective (s : CacheState) : Prop :=
  (dllKeys s).Nodup ∧ s.hm.Perm (dllKeys s)

instance (s : CacheState) : Decidable (bijective s) := by
  unfold bijective; infer_instance

/-! ### The ingestion pipeline (`pkg/server/server.go`) and DB gateway
(`pkg/database/handler.go`) -/

/-- One commit as yielded by the go-git log iterator: hash, author email
and committer timestamp.  Timestamps are integers counting nanoseconds
(Go `time.Time` at nanosecond resolution, the zero time being `0`). -/
structure Commit where
  hash : String
  authorEmail : String
  committerWhen : Int
deriving DecidableEq, Repr

/-- One row of `public.commits` as inserted by `InsertCommit`:
`(commit_hash, user_id, repo_id, commit_date)`, the date being NULLable in
the schema consumed by `GetLastCommit`. -/
structure CommitRow where
  commitHash : String
  userId : Nat
  repoId : Nat
  commitDate : Option Int
deriving DecidableEq, Repr

/-- Descending insertion used to model the SQL `ORDER BY commit_date DESC`. -/
def insertDesc (x : Int) : List Int → List Int
  | [] => [x]
  | y :: ys => if x ≥ y then x :: y :: ys else y :: insertDesc x ys

/-- Descending sort used to model the SQL `ORDER BY commit_date DESC`. -/
def sortDesc : List Int → List Int
  | [] => []
  | x :: xs => insertDesc x (sortDesc xs)

/-- The dates selected by the `GetLastCommit` query: rows of the repo whose
`commit_date IS NOT NULL`. -/
def commitDatesOf (db : List CommitRow) (repoId : Nat) : List Int :=
  db.filterMap (fun r => if r.repoId = repoId then r.commitDate else none)

/-- The SQL of `GetLastCommit`: `SELECT commit_date FROM public.commits
WHERE commit_date IS NOT NULL AND repo_id=$1 ORDER BY commit_date DESC
LIMIT 1`, returning at most one row. -/
def getLastCommitQuery (db : List CommitRow) (repoId : Nat) : Option Int :=
  (sortDesc (commitDatesOf db repoId)).head?

/-- The Go `GetLastCommit`: on `sql.ErrNoRows` (no selected row) it
returns the zero time and a nil error; otherwise the selected date and a
nil error.  The pair is `(time.Time, error)` with the error as
`Option String`. -/
def GetLastCommit (db : List CommitRow) (repoId : Nat) : Int × Option String :=
  match getLastCommitQuery db repoId with
  | none => (0, none)
  | some d => (d, none)

/-- The go-git `Log` call with `LogOptions.Since`: the range filter of the
forge implementation is inclusive (the code comment at the
`latestCommitDate.Add(time.Nanosecond)` call: "git log --since is
inclusive of date/times"), so a commit is yielded iff `since ≤
committerWhen`. -/
def gitLogSince (commits : List Commit) (since : Int) : List Commit :=
  commits.filter (fun cm => since ≤ cm.committerWhen)

/-- The `since` bounds and yielded commit lists of the two
`gitRepo.Log(&gitLogOptions)` calls of one `processRepository` run. -/
structure IngestLogCalls where
  authorPassSince : Int
  commitPassSince : Int
  authorPassCommits : List Commit
  commitPassCommits : List Commit
deriving DecidableEq, Repr

/-- The log-reading slice of `processRepository`: read the stored latest
commit date, add one nanosecond (`latestCommitDate =
latestCommitDate.Add(time.Nanosecond)`), build one `gitLogOptions` value
with that `Since` bound, and use that same value for both the author-pass
iterator and the rebuilt commit-pass iterator. -/
def processRepositoryLog (db : List CommitRow) (repoId : Nat)
    (commits : List Commit) : IngestLogCalls :=
  let latestCommitDate := (GetLastCommit db repoId).1 + 1
  { authorPassSince := latestCommitDate
    commitPassSince := latestCommitDate
    authorPassCommits := gitLogSince commits latestCommitDate
    commitPassCommits := gitLogSince commits latestCommitDate }

/-- The in-memory state of the author pass of `processRepository`:
the ordered `uniqueAuthorEmails` slice, the `authorEmailSet` set (a Go
`map[string]struct{}`, modelled by its membership list), and the emails
enqueued on the bulk author insert statement, in order. -/
structure AuthorPassState where
  uniqueAuthorEmails : List String
  authorEmailSet : List String
  stmtEmails : List String
deriving DecidableEq, Repr

/-- One step of the author-pass `ForEach` body: if the email is already in
the set, return early; otherwise add it to the set, append it to the
ordered unique list, and enqueue it on the bulk insert statement
(`InsertAuthor`). -/
def authorPassStep (st : AuthorPassState) (cm : Commit) : AuthorPassState :=
  if st.authorEmailSet.contains cm.authorEmail then st
  else
    { uniqueAuthorEmails := st.uniqueAuthorEmails ++ [cm.authorEmail]
      authorEmailSet := cm.authorEmail :: st.authorEmailSet
      stmtEmails := st.stmtEmails ++ [cm.authorEmail] }

/-- The author pass: fold the `ForEach` body over the yielded commit log,
starting from the empty slice/set/statement. -/
def authorPass (commits : List Commit) : AuthorPassState :=
  commits.foldl authorPassStep
    { uniqueAuthorEmails := [], authorEmailSet := [], stmtEmails := [] }

/-- Helper recursion for the spec-side order: first-seen fold carrying the
set of already-seen emails. -/
def firstSeenAux (seen : List String) : List String → List String
  | [] => []
  | e :: rest =>
    if seen.contains e then firstSeenAux seen rest
    else e :: firstSeenAux (e :: seen) rest

/-- Spec-side definition, following the claim's words: the distinct emails
of the log in order of first appearance (each email, followed by the
first-seen order of the remainder with that email removed). -/
def specFirstSeenOrder : List String → List String
  | [] => []
  | e :: rest => e :: specFirstSeenOrder (rest.filter (fun x => x != e))
termination_by l => l.length
decreasing_by
  exact Nat.lt_succ_of_le (List.length_filter_le _ _)

/-! ### The HTTP intake (`handleRequest`, single-URL path) -/

/-- The response-side effect of one `handleRequest` invocation: the
`WriteHeader` status codes issued by the handler goroutine in order, and
whether the ingestion is dispatched to a background goroutine.  Per
`net/http`, the FIRST `WriteHeader` call commits the response status;
later calls are superfluous and ignored. -/
structure BakeResponse where
  statusWrites : List Nat
  background : Bool
deriving DecidableEq, Repr

/-- The single-URL path of `handleRequest` after successful validation
(no `org` in the body): the handler unconditionally writes
`http.StatusAccepted` (202) first; then, when `wait` is set, it runs
`processRepository` synchronously and calls
`http.Error(w, _, http.StatusInternalServerError)` (a `WriteHeader(500)`)
if it failed; when `wait` is unset it starts a background goroutine and
returns. -/
def handleBakeSingle (wait : Bool) (ingestFails : Bool) : BakeResponse :=
  if wait then
    { statusWrites := 202 :: (if ingestFails then [500] else [])
      background := false }
  else
    { statusWrites := [202], background := true }

/-- The status the client sees: the first committed `WriteHeader`, or the
implicit 200 when the handler never writes one. -/
def effectiveStatus (r : BakeResponse) : Nat := r.statusWrites.headD 200

/-! ### Org expansion (`pkg/github/github_client.go`) -/

/-- A `github.Repository` as `FilterArchivedRepos` consumes it. `Archived`
is a `*bool` in Go; the model keeps the pointed-to value and the pointer
identity as an allocation id. -/
structure GithubRepo where
  archived : Bool
  archivedAddr : Nat
  htmlURL : String
deriving DecidableEq, Repr

/-- The Go `FilterArchivedRepos` of `pkg/github`: `falseAddr` is the
address of the function-local `falseVal` variable; the Go guard
`repo.Archived != &falseVal` compares the POINTERS, so a repository is
kept iff its `Archived` pointer differs from `&falseVal`. -/
def FilterArchivedRepos (falseAddr : Nat) (repos : List GithubRepo) :
    List GithubRepo :=
  repos.filter (fun r => r.archivedAddr ≠ falseAddr)

/-- Spec-side definition following the claim's words (and the package's
own test `TestFilterArchivedRepos`): archived repositories are filtered
out.  The sibling `FilterGithubArchivedRepos` of `pkg/clients` implements
exactly this with `!*repo.Archived`. -/
def specFilterArchived (repos : List GithubRepo) : List GithubRepo :=
  repos.filter (fun r => !r.archived)

/-- The repository list built by `createRepoList` in
`github_client_test.go`: `total` repositories, the first `archiveCount`
archived, each holding its own `Archived` allocation (distinct addresses,
never equal to the later `&falseVal`, which the model places at address
0). -/
def createRepoList (org : String) (total archiveCount : Nat) :
    List GithubRepo :=
  (List.range total).map (fun i =>
    { archived := decide (i < archiveCount)
      archivedAddr := i + 1
      htmlURL := "https://github.com/" ++ org ++ "/repo-" ++ toString i })

/-! ### Concrete fixtures for witnesses and counterexamples -/

/-- A demo commits table: repo 7 has two dated rows and one NULL-dated
row; repo 8 has one row; repo 9 has none. -/
def demoDb : List CommitRow :=
  [{ commitHash := "h1", userId := 1, repoId := 7, commitDate := some 100 },
   { commitHash := "h2", userId := 1, repoId := 7, commitDate := some 300 },
   { commitHash := "h3", userId := 2, repoId := 8, commitDate := some 999 },
   { commitHash := "h4", userId := 1, repoId := 7, commitDate := none }]

/-- An environment with ample free disk (100 Gb, above any demo budget). -/
def demoEnv : DiskEnv := { statfs := fun _ => some (100 * 1024 * 1024 * 1024) }

/-- An environment whose free disk is 0, at or below every budget. -/
def lowDiskEnv : DiskEnv := { statfs := fun _ => some 0 }

/-- A demo configuration pinning the URL "P". -/
def demoCfg : CacheConfig :=
  { dir := "cache", minFreeDiskGb := 1, neverEvictRepos := ["P"] }

/-- The empty cache over an empty disk. -/
def emptyCache : CacheState := { dll := [], hm := [], disk := [] }

/-- A cache holding the unpinned entry "A" (front) and the pinned entry
"P" (back / least recently used), both cloned on disk. -/
def pinnedTailCache : CacheState :=
  { dll := [⟨"A", "cache/A"⟩, ⟨"P", "cache/P"⟩]
    hm := ["A", "P"]
    disk := [⟨"cache/A", true⟩, ⟨"cache/P", true⟩] }

/-- A cache state as left behind by a failed clone of "u": the entry is in
the hashmap and the sequence, and its directory exists on disk without
holding a valid repository. -/
def staleEntryCache : CacheState :=
  { dll := [⟨"u", pathOf "cache" "u"⟩]
    hm := ["u"]
    disk := [⟨pathOf "cache" "u", false⟩] }

/-- A configuration pinning the nested key "g/s/r". -/
def nestedPinnedCfg : CacheConfig :=
  { dir := "cache", minFreeDiskGb := 1, neverEvictRepos := ["g/s/r"] }

/-- An environment under disk pressure that is relieved once the disk
holds at most one directory. -/
def nestedEnv : DiskEnv :=
  { statfs := fun d => some (if d.length ≤ 1 then 100 * 1024 * 1024 * 1024 else 0) }

/-- A cache holding the pinned nested entry "g/s/r" (front) and the
unpinned entry "g/s" (back), whose directory `cache/g/s` is an ancestor
of the pinned clone's directory `cache/g/s/r`. -/
def nestedCache : CacheState :=
  { dll := [⟨"g/s/r", "cache/g/s/r"⟩, ⟨"g/s", "cache/g/s"⟩]
    hm := ["g/s/r", "g/s"]
    disk := [⟨"cache/g/s/r", true⟩, ⟨"cache/g/s", true⟩] }

/-- A cache holding the pinned entry "P" (front) and the unpinned entry
"A" (back), with disjoint clone directories. -/
def evictDemoCache : CacheState :=
  { dll := [⟨"P", "cache/P"⟩, ⟨"A", "cache/A"⟩]
    hm := ["P", "A"]
    disk := [⟨"cache/P", true⟩, ⟨"cache/A", true⟩] }

/-! ### Unfolding lemmas for the eviction loop -/

theorem tryEvictLoop_nil (env : DiskEnv) (c : CacheConfig) (s : CacheState) (free : Nat)
    (hdll : s.dll = []) (hfree : free ≤ c.minFreeBytes) :
    tryEvictLoop env c s free = (none, s) := by
  rw [tryEvictLoop.eq_def, if_pos hfree]
  split
  · rfl
  · rename_i a rest heq
    rw [hdll] at heq
    cases heq

theorem tryEvictLoop_highfree (env : DiskEnv) (c : CacheConfig) (s : CacheState) (free : Nat)
    (hfree : ¬ free ≤ c.minFreeBytes) :
    tryEvictLoop env c s free = (none, s) := by
  rw [tryEvictLoop.eq_def, if_neg hfree]

theorem tryEvictLoop_cons (env : DiskEnv) (c : CacheConfig) (s : CacheState) (free : Nat)
    (a : GitRepoFilePath) (rest : List GitRepoFilePath)
    (hdll : s.dll = a :: rest) (hfree : free ≤ c.minFreeBytes) :
    tryEvictLoop env c s free =
      (if c.neverEvictRepos.contains ((a :: rest).getLast (by simp)).key then
        (some "Disk space completely occupied by neverEvictRepos, could not evict", s)
      else
        match env.statfs (evictVictim s ((a :: rest).getLast (by simp))).disk with
        | none => (some "could not re-calculate disk space using statfs",
            evictVictim s ((a :: rest).getLast (by simp)))
        | some free' => tryEvictLoop env c (evictVictim s ((a :: rest).getLast (by simp))) free') := by
  rw [tryEvictLoop.eq_def, if_pos hfree]
  split
  · rename_i heq
    rw [hdll] at heq
    cases heq
  · rename_i a' rest' heq
    rw [hdll] at heq
    injection heq with h1 h2
    subst h1; subst h2
    rfl

/-- Any property preserved by single evictions of an unpinned back node is
preserved by the whole eviction loop. -/
theorem tryEvictLoop_inv (env : DiskEnv) (c : CacheConfig) (P : CacheState → Prop)
    (hstep : ∀ (t : CacheState) (a : GitRepoFilePath) (rest : List GitRepoFilePath),
        t.dll = a :: rest →
        ¬ c.neverEvictRepos.contains ((a :: rest).getLast (by simp)).key = true →
        P t → P (evictVictim t ((a :: rest).getLast (by simp)))) :
    ∀ (s : CacheState) (free : Nat), P s → P (tryEvictLoop env c s free).2 := by
  intro s free
  induction s, free using tryEvictLoop.induct env c with
  | case1 s free hfree hdll =>
    intro hP
    rw [tryEvictLoop_nil env c s free hdll hfree]
    exact hP
  | case2 s free hfree a rest hdll victim hpin =>
    intro hP
    rw [tryEvictLoop_cons env c s free a rest hdll hfree, if_pos hpin]
    exact hP
  | case3 s free hfree a rest hdll victim hpin s' hstat =>
    intro hP
    rw [tryEvictLoop_cons env c s free a rest hdll hfree, if_neg hpin]
    simp only [hstat]
    exact hstep s a rest hdll hpin hP
  | case4 s free hfree a rest hdll victim hpin s' free' hstat ih =>
    intro hP
    rw [tryEvictLoop_cons env c s free a rest hdll hfree, if_neg hpin]
    simp only [hstat]
    exact ih (hstep s a rest hdll hpin hP)
  | case5 s free hfree =>
    intro hP
    rw [tryEvictLoop_highfree env c s free hfree]
    exact hP

/-- Any property preserved by single evictions of an unpinned back node is
preserved by `tryEvict`. -/
theorem tryEvict_inv (env : DiskEnv) (c : CacheConfig) (P : CacheState → Prop)
    (hstep : ∀ (t : CacheState) (a : GitRepoFilePath) (rest : List GitRepoFilePath),
        t.dll = a :: rest →
        ¬ c.neverEvictRepos.contains ((a :: rest).getLast (by simp)).key = true →
        P t → P (evictVictim t ((a :: rest).getLast (by simp)))) :
    ∀ (s : CacheState), P s → P (tryEvict env c s).2 := by
  intro s hP
  unfold tryEvict
  match env.statfs s.disk with
  | none => exact hP
  | some free => exact tryEvictLoop_inv env c P hstep s free hP

/-! ### Permutation and list helpers -/

/-- The reordering `MoveToFront` permutes the ordered sequence. -/
theorem moveToFront_perm (key : String) (l : List GitRepoFilePath) :
    (moveToFront key l).Perm l := by
  induction l with
  | nil => simp [moveToFront]
  | cons x xs ih =>
    unfold moveToFront at ih ⊢
    by_cases hx : (x.key == key) = true
    · simp only [List.find?_cons, hx, List.eraseP_cons, cond_true]
      exact List.Perm.refl _
    · simp only [List.find?_cons, hx, List.eraseP_cons, cond_false]
      cases hfind : xs.find? (fun e => e.key == key) with
      | none => exact List.Perm.refl _
      | some e =>
        rw [hfind] at ih
        exact (List.Perm.swap x e _).trans (ih.cons x)

/-- Erasing the last element of a duplicate-free list is `dropLast`. -/
theorem nodup_erase_getLast {α : Type} [DecidableEq α] :
    ∀ (l : List α) (h : l ≠ []), l.Nodup → l.erase (l.getLast h) = l.dropLast := by
  intro l
  induction l with
  | nil => intro h; cases h rfl
  | cons x xs ih =>
    intro h hnd
    cases xs with
    | nil => simp
    | cons y ys =>
      rw [List.getLast_cons (by simp)]
      have hx : x ∉ (y :: ys) := (List.nodup_cons.mp hnd).1
      have hxne : x ≠ (y :: ys).getLast (by simp) := by
        intro he
        exact hx (he ▸ List.getLast_mem (by simp))
      rw [List.erase_cons_tail (by simpa using hxne)]
      rw [ih (by simp) (List.nodup_cons.mp hnd).2]
      rfl

theorem dllKeys_evictVictim (t : CacheState) (v : GitRepoFilePath) :
    dllKeys (evictVictim t v) = (dllKeys t).dropLast := by
  simp only [dllKeys, evictVictim]
  exact List.map_dropLast _ _

theorem bijective_moveToFront (s : CacheState) (k : String) (h : bijective s) :
    bijective { s with dll := moveToFront k s.dll } := by
  obtain ⟨hnd, hperm⟩ := h
  have hp : ((moveToFront k s.dll).map GitRepoFilePath.key).Perm (dllKeys s) :=
    (moveToFront_perm k s.dll).map _
  exact ⟨hp.nodup_iff.mpr hnd, hperm.trans hp.symm⟩

theorem bijective_evictVictim (t : CacheState) (a : GitRepoFilePath)
    (rest : List GitRepoFilePath) (hdll : t.dll = a :: rest) (hbij : bijective t) :
    bijective (evictVictim t ((a :: rest).getLast (by simp))) := by
  obtain ⟨hnd, hperm⟩ := hbij
  have hne : dllKeys t ≠ [] := by simp [dllKeys, hdll]
  have hvk : ((a :: rest).getLast (by simp)).key = (dllKeys t).getLast hne := by
    simp only [dllKeys, hdll]
    exact (List.getLast_map _ _ _).symm
  have herase : (dllKeys t).erase ((dllKeys t).getLast hne) = (dllKeys t).dropLast :=
    nodup_erase_getLast _ hne hnd
  constructor
  · rw [dllKeys_evictVictim]
    exact hnd.sublist (List.dropLast_sublist _)
  · rw [dllKeys_evictVictim]
    show (t.hm.erase ((a :: rest).getLast (by simp)).key).Perm _
    rw [hvk, ← herase]
    exact hperm.erase _

theorem mem_dllKeys_evictVictim (t : CacheState) (a : GitRepoFilePath)
    (rest : List GitRepoFilePath) (hdll : t.dll = a :: rest) {p : String}
    (hpne : p ≠ ((a :: rest).getLast (by simp)).key) (hp : p ∈ dllKeys t) :
    p ∈ dllKeys (evictVictim t ((a :: rest).getLast (by simp))) := by
  have hne : dllKeys t ≠ [] := by simp [dllKeys, hdll]
  have hvk : ((a :: rest).getLast (by simp)).key = (dllKeys t).getLast hne := by
    simp only [dllKeys, hdll]
    exact (List.getLast_map _ _ _).symm
  rw [dllKeys_evictVictim]
  have hsplit := List.dropLast_append_getLast hne
  rw [← hsplit] at hp
  rcases List.mem_append.mp hp with h | h
  · exact h
  · exfalso
    apply hpne
    rw [hvk]
    simpa using h

theorem mem_diskPaths_removeAll {d : Disk} {q r : String}
    (hout : isUnderPath r q = false) (hq : q ∈ diskPaths d) :
    q ∈ diskPaths (diskRemoveAll d r) := by
  simp only [diskPaths, List.mem_map] at hq ⊢
  obtain ⟨e, he, heq⟩ := hq
  exact ⟨e, List.mem_filter.mpr ⟨he, by simp [diskRemoveAll, heq, hout]⟩, heq⟩

/-! ### Preservation of the bijection invariant -/

theorem putCloneTail_hm (s : CacheState) (e : GitRepoFilePath) (mk cl : Bool)
    (tr : List DiskAction) : (putCloneTail s e mk cl tr).state.hm = s.hm := by
  unfold putCloneTail
  cases mk <;> cases cl <;> simp

theorem putCloneTail_dll (s : CacheState) (e : GitRepoFilePath) (mk cl : Bool)
    (tr : List DiskAction) : (putCloneTail s e mk cl tr).state.dll = s.dll := by
  unfold putCloneTail
  cases mk <;> cases cl <;> simp

theorem bijective_of_fields {s t : CacheState} (hhm : t.hm = s.hm)
    (hdll : t.dll = s.dll) (h : bijective s) : bijective t := by
  unfold bijective dllKeys at *
  rw [hhm, hdll]
  exact h

theorem bijective_pushFront (s1 : CacheState) (e : GitRepoFilePath) (d : Disk)
    (hk : e.key ∉ s1.hm) (h : bijective s1) :
    bijective { hm := e.key :: s1.hm, dll := e :: s1.dll, disk := d } := by
  obtain ⟨hnd, hperm⟩ := h
  have hkd : e.key ∉ dllKeys s1 := fun hmem => hk (hperm.mem_iff.mpr hmem)
  exact ⟨List.nodup_cons.mpr ⟨hkd, hnd⟩, hperm.cons e.key⟩

theorem bijective_tryEvict (env : DiskEnv) (c : CacheConfig) (s : CacheState)
    (h : bijective s) : bijective (tryEvict env c s).2 :=
  tryEvict_inv env c bijective
    (fun t a rest hdll _ hb => bijective_evictVictim t a rest hdll hb) s h

theorem not_mem_hm_tryEvict (env : DiskEnv) (c : CacheConfig) (s : CacheState)
    {k : String} (h : k ∉ s.hm) : k ∉ (tryEvict env c s).2.hm :=
  tryEvict_inv env c (fun t => k ∉ t.hm)
    (fun _ _ _ _ _ hnot hmem => hnot (List.mem_of_mem_erase hmem)) s h

theorem bijective_get (s : CacheState) (k : String) (h : bijective s) :
    bijective (get s k).2 := by
  unfold get
  by_cases hk : s.hm.contains k = true
  · rw [if_pos hk]
    exact bijective_moveToFront s k h
  · rw [if_neg hk]
    exact h

theorem bijective_put (env : DiskEnv) (c : CacheConfig) (s : CacheState)
    (k : String) (mk cl : Bool) (h : bijective s) :
    bijective (put env c s k mk cl).state := by
  unfold put
  by_cases hk : s.hm.contains k = true
  · rw [if_pos hk]
    exact bijective_moveToFront s k h
  · rw [if_neg hk]
    have hknotin : k ∉ s.hm := by simpa using hk
    rcases htv : tryEvict env c s with ⟨err, s1⟩
    have hb1 : bijective s1 := by
      have := bijective_tryEvict env c s h
      rwa [htv] at this
    have hk1 : k ∉ s1.hm := by
      have := not_mem_hm_tryEvict env c s hknotin
      rwa [htv] at this
    cases err with
    | some e => exact hb1
    | none =>
      dsimp only
      have hb2 : bijective
          { s1 with hm := k :: s1.hm, dll := ⟨k, pathOf c.dir k⟩ :: s1.dll } :=
        bijective_pushFront s1 ⟨k, pathOf c.dir k⟩ s1.disk hk1 hb1
      split
      · split
        · exact hb2
        · exact bijective_of_fields (by rw [putCloneTail_hm]) (by rw [putCloneTail_dll]) hb2
      · exact bijective_of_fields (by rw [putCloneTail_hm]) (by rw [putCloneTail_dll]) hb2

theorem bijective_runOp (env : DiskEnv) (c : CacheConfig) (s : CacheState)
    (op : CacheOp) (h : bijective s) : bijective (runOp env c s op) := by
  cases op with
  | get k => exact bijective_get s k h
  | put k mk cl => exact bijective_put env c s k mk cl h
  | evict => exact bijective_tryEvict env c s h

/-! ### Pinned entries are never removed -/

theorem pinned_mem_tryEvict (env : DiskEnv) (c : CacheConfig) {p : String}
    (hp : p ∈ c.neverEvictRepos) (s : CacheState)
    (h : p ∈ s.hm ∧ p ∈ dllKeys s) :
    p ∈ (tryEvict env c s).2.hm ∧ p ∈ dllKeys (tryEvict env c s).2 := by
  refine tryEvict_inv env c (fun t => p ∈ t.hm ∧ p ∈ dllKeys t) ?_ s h
  intro t a rest hdll hpin hPt
  obtain ⟨h1, h2⟩ := hPt
  have hvk : ((a :: rest).getLast (by simp)).key ∉ c.neverEvictRepos := by
    simpa using hpin
  have hne : p ≠ ((a :: rest).getLast (by simp)).key := fun he => hvk (he ▸ hp)
  exact ⟨(List.mem_erase_of_ne hne).mpr h1, mem_dllKeys_evictVictim t a rest hdll hne h2⟩

theorem mem_dllKeys_moveToFront (k : String) (dll : List GitRepoFilePath) {p : String}
    (hp : p ∈ dll.map GitRepoFilePath.key) :
    p ∈ (moveToFront k dll).map GitRepoFilePath.key :=
  (((moveToFront_perm k dll).map _).mem_iff).mpr hp

theorem pinned_mem_put (env : DiskEnv) (c : CacheConfig) {p : String}
    (hp : p ∈ c.neverEvictRepos) (s : CacheState) (k : String) (mk cl : Bool)
    (h : p ∈ s.hm ∧ p ∈ dllKeys s) :
    p ∈ (put env c s k mk cl).state.hm ∧ p ∈ dllKeys (put env c s k mk cl).state := by
  unfold put
  by_cases hk : s.hm.contains k = true
  · rw [if_pos hk]
    exact ⟨h.1, mem_dllKeys_moveToFront k s.dll h.2⟩
  · rw [if_neg hk]
    rcases htv : tryEvict env c s with ⟨err, s1⟩
    have h1 : p ∈ s1.hm ∧ p ∈ dllKeys s1 := by
      have := pinned_mem_tryEvict env c hp s h
      rwa [htv] at this
    cases err with
    | some e => exact h1
    | none =>
      dsimp only
      have hgoal : ∀ (st : CacheState), st.hm = k :: s1.hm →
          st.dll = ⟨k, pathOf c.dir k⟩ :: s1.dll → p ∈ st.hm ∧ p ∈ dllKeys st := by
        intro st hhm hd
        unfold dllKeys
        rw [hhm, hd]
        exact ⟨List.mem_cons_of_mem _ h1.1, List.mem_cons_of_mem _ h1.2⟩
      split
      · split
        · exact hgoal _ rfl rfl
        · exact hgoal _ (putCloneTail_hm _ _ _ _ _) (putCloneTail_dll _ _ _ _ _)
      · exact hgoal _ (putCloneTail_hm _ _ _ _ _) (putCloneTail_dll _ _ _ _ _)

theorem pinned_mem_runOp (env : DiskEnv) (c : CacheConfig) {p : String}
    (hp : p ∈ c.neverEvictRepos) (s : CacheState) (op : CacheOp)
    (h : p ∈ s.hm ∧ p ∈ dllKeys s) :
    p ∈ (runOp env c s op).hm ∧ p ∈ dllKeys (runOp env c s op) := by
  cases op with
  | get k =>
    unfold runOp get
    dsimp only
    by_cases hk : s.hm.contains k = true
    · rw [if_pos hk]
      exact ⟨h.1, mem_dllKeys_moveToFront k s.dll h.2⟩
    · rw [if_neg hk]
      exact h
  | put k mk cl => exact pinned_mem_put env c hp s k mk cl h
  | evict => exact pinned_mem_tryEvict env c hp s h

/-! ### The claims -/

/-- C1: the claim says that when free disk is at or below the budget and
the sequence holds at least one unpinned entry, `tryEvict` walks from the
tail toward the head past pinned entries until it finds an unpinned
victim, and returns the cannot-meet-budget error only when every entry is
pinned.  The code instead returns that error as soon as the tail entry is
pinned: in `pinnedTailCache` the free disk is 0 (at or below the 1 Gb
budget), the unpinned entry "A" is in the sequence, yet `tryEvict`
returns the "Disk space completely occupied by neverEvictRepos" error and
evicts nothing. -/
theorem claim_C1_eviction_walk_errors_despite_unpinned_entry :
    (tryEvict lowDiskEnv demoCfg pinnedTailCache).1 =
      some "Disk space completely occupied by neverEvictRepos, could not evict" ∧
    (tryEvict lowDiskEnv demoCfg pinnedTailCache).2 = pinnedTailCache ∧
    "A" ∈ dllKeys pinnedTailCache ∧ "A" ∉ demoCfg.neverEvictRepos := by
  refine ⟨?_, ?_, by decide, by decide⟩ <;>
    simp [tryEvict, tryEvictLoop, lowDiskEnv, demoCfg, pinnedTailCache,
      CacheConfig.minFreeBytes]

/-- C2 counterexample: the claim says a pinned URL's entry is never
removed from the index, the ordered sequence, or disk by `tryEvict`.
With the pinned nested key "g/s/r" and the unpinned key "g/s" (clone
directories `cache/g/s/r` and `cache/g/s`), evicting the unpinned tail
runs `os.RemoveAll("cache/g/s")`, whose subtree deletion also removes the
pinned clone at `cache/g/s/r`: `tryEvict` returns without error, the
pinned key is still in the index and the sequence, but its directory is
gone from disk. -/
theorem claim_C2_disk_subtree_counterexample :
    "g/s/r" ∈ nestedPinnedCfg.neverEvictRepos ∧
    (tryEvict nestedEnv nestedPinnedCfg nestedCache).1 = none ∧
    "g/s/r" ∈ (tryEvict nestedEnv nestedPinnedCfg nestedCache).2.hm ∧
    "g/s/r" ∈ dllKeys (tryEvict nestedEnv nestedPinnedCfg nestedCache).2 ∧
    "cache/g/s/r" ∈ diskPaths nestedCache.disk ∧
    "cache/g/s/r" ∉ diskPaths (tryEvict nestedEnv nestedPinnedCfg nestedCache).2.disk := by
  refine ⟨by decide, ?_, ?_, ?_, by decide, ?_⟩ <;>
    simp [tryEvict, tryEvictLoop, nestedEnv, nestedPinnedCfg, nestedCache,
      CacheConfig.minFreeBytes, evictVictim, diskRemoveAll, isUnderPath,
      diskPaths, dllKeys, List.isPrefixOf]

/-- C2 (amended): for every pinned URL `p`, across every finite sequence
of Get, Put and tryEvict operations, `p` is never removed from the index
or the ordered sequence by `tryEvict`; and `tryEvict` deletes on-disk
directories only through `os.RemoveAll` on unpinned victims, so the
directory of `p`'s entry survives eviction whenever it does not lie in
the subtree of any unpinned entry's path (with nested keys the subtree
deletion of an unpinned ancestor can remove it — see the
counterexample). -/
theorem claim_C2_pinned_never_removed (env : DiskEnv) (c : CacheConfig)
    (p : String) (hp : p ∈ c.neverEvictRepos) :
    (∀ (ops : List CacheOp) (s : CacheState),
        p ∈ s.hm → p ∈ dllKeys s →
        p ∈ (runOps env c ops s).hm ∧ p ∈ dllKeys (runOps env c ops s)) ∧
    (∀ (s : CacheState) (ep : GitRepoFilePath), ep ∈ s.dll → ep.key = p →
        (∀ e ∈ s.dll, e.key ∉ c.neverEvictRepos → isUnderPath e.path ep.path = false) →
        ep.path ∈ diskPaths s.disk →
        ep.path ∈ diskPaths (tryEvict env c s).2.disk) := by
  constructor
  · intro ops
    induction ops with
    | nil => intro s h1 h2; exact ⟨h1, h2⟩
    | cons op rest ih =>
      intro s h1 h2
      have h' := pinned_mem_runOp env c hp s op ⟨h1, h2⟩
      exact ih (runOp env c s op) h'.1 h'.2
  · intro s ep _ _ hout hdisk
    refine (tryEvict_inv env c
      (fun t => (∀ e ∈ t.dll, e.key ∉ c.neverEvictRepos →
          isUnderPath e.path ep.path = false) ∧ ep.path ∈ diskPaths t.disk)
      ?_ s ⟨hout, hdisk⟩).2
    intro t a rest hdll hpin hPt
    obtain ⟨hc, hd⟩ := hPt
    have hvmem : (a :: rest).getLast (by simp) ∈ t.dll := by
      rw [hdll]
      exact List.getLast_mem (by simp)
    have hvk : ((a :: rest).getLast (by simp)).key ∉ c.neverEvictRepos := by
      simpa using hpin
    constructor
    · intro e he
      exact hc e ((List.dropLast_sublist _).subset he)
    · show ep.path ∈ diskPaths (diskRemoveAll t.disk _)
      exact mem_diskPaths_removeAll (hc _ hvmem hvk) hd

/-- Witness for C2 (amended): instantiated at the pinned URL "P" of the
demo configuration and, for the disk half, at a state where the unpinned
entry "A" at the back is evicted while the pinned entry's directory
`cache/P` is not inside any unpinned entry's subtree. -/
theorem claim_C2_pinned_never_removed_witness :
    ("P" ∈ demoCfg.neverEvictRepos ∧
     (⟨"P", "cache/P"⟩ : GitRepoFilePath) ∈ evictDemoCache.dll ∧
     (∀ e ∈ evictDemoCache.dll, e.key ∉ demoCfg.neverEvictRepos →
        isUnderPath e.path "cache/P" = false) ∧
     "cache/P" ∈ diskPaths evictDemoCache.disk) ∧
    "cache/P" ∈ diskPaths (tryEvict nestedEnv demoCfg evictDemoCache).2.disk :=
  ⟨⟨by decide, by decide, by decide, by decide⟩,
    (claim_C2_pinned_never_removed nestedEnv demoCfg "P" (by decide)).2
      evictDemoCache ⟨"P", "cache/P"⟩ (by decide) (by decide) (by decide) (by decide)⟩

/-- C3: after every finite sequence of cache operations — Get, Put with
any mkdir/clone outcomes (hence including Puts whose clone fails and Puts
that trigger evictions), and direct tryEvict runs — the hashmap index and
the doubly linked ordered sequence remain bijective: the sequence holds
each key at most once and the index's key set is exactly the sequence's
key set. -/
theorem claim_C3_index_sequence_bijective (env : DiskEnv) (c : CacheConfig)
    (ops : List CacheOp) (s : CacheState) (h : bijective s) :
    bijective (runOps env c ops s) := by
  induction ops generalizing s with
  | nil => exact h
  | cons op rest ih => exact ih (runOp env c s op) (bijective_runOp env c s op h)

/-- Witness for C3: the empty cache is bijective and remains so across a
Put whose clone fails, a Get, and a successful Put of the same URL. -/
theorem claim_C3_index_sequence_bijective_witness :
    bijective emptyCache ∧
    bijective (runOps demoEnv demoCfg
      [CacheOp.put "u" true false, CacheOp.get "u", CacheOp.put "u" true true]
      emptyCache) :=
  ⟨by decide, claim_C3_index_sequence_bijective demoEnv demoCfg _ emptyCache (by decide)⟩

/-- C4 counterexample: the claim says a Put whose clone fails removes the
target directory before returning, leaving no on-disk state at the
entry's path.  Concretely, Put("u") on the empty cache with ample free
disk, successful mkdir and failing clone returns the clone error while
the target directory `cache/u` is still present on disk. -/
theorem claim_C4_counterexample :
    (put demoEnv demoCfg emptyCache "u" true false).result =
      .error "could not clone into cache directory" ∧
    pathOf "cache" "u" ∈
      diskPaths (put demoEnv demoCfg emptyCache "u" true false).state.disk := by
  constructor <;>
    simp [put, tryEvict, tryEvictLoop, putCloneTail, demoEnv, demoCfg, emptyCache,
      CacheConfig.minFreeBytes, pathOf, diskHas, diskPaths, diskOpens, diskRemoveAll]

/-- C4 (amended): when a Put misses the cache, eviction succeeds, the
target path does not open as a valid repository (so the clone path is
taken), directory creation succeeds and the clone fails, Put returns the
clone error and the target directory remains on disk — the code performs
no removal on clone failure; its only `os.RemoveAll` runs when a
pre-existing directory fails to open as a repository, before
re-cloning. -/
theorem claim_C4_failed_clone_leaves_directory (env : DiskEnv) (c : CacheConfig)
    (s : CacheState) (key : String)
    (hmiss : s.hm.contains key = false)
    (hevict : (tryEvict env c s).1 = none)
    (hnoadopt : diskOpens (tryEvict env c s).2.disk (pathOf c.dir key) = false) :
    (put env c s key true false).result =
      .error "could not clone into cache directory" ∧
    pathOf c.dir key ∈ diskPaths (put env c s key true false).state.disk := by
  unfold put
  rw [if_neg (by simpa using hmiss)]
  rcases htv : tryEvict env c s with ⟨err, s1⟩
  rw [htv] at hevict hnoadopt
  dsimp only at hevict hnoadopt
  subst hevict
  dsimp only
  by_cases hhas : diskHas s1.disk (pathOf c.dir key) = true
  · rw [if_pos hhas, if_neg (by simp [hnoadopt])]
    unfold putCloneTail
    rw [if_pos rfl, if_neg (by simp)]
    exact ⟨rfl, by simp [diskPaths]⟩
  · rw [if_neg hhas]
    unfold putCloneTail
    rw [if_pos rfl, if_neg (by simp)]
    exact ⟨rfl, by simp [diskPaths]⟩

/-- Witness for C4 (amended): instantiated at the empty cache with ample
free disk. -/
theorem claim_C4_failed_clone_leaves_directory_witness :
    (emptyCache.hm.contains "u" = false ∧
     (tryEvict demoEnv demoCfg emptyCache).1 = none ∧
     diskOpens (tryEvict demoEnv demoCfg emptyCache).2.disk
       (pathOf demoCfg.dir "u") = false) ∧
    ((put demoEnv demoCfg emptyCache "u" true false).result =
       .error "could not clone into cache directory" ∧
     pathOf demoCfg.dir "u" ∈
       diskPaths (put demoEnv demoCfg emptyCache "u" true false).state.disk) := by
  have h1 : (tryEvict demoEnv demoCfg emptyCache).1 = none := by
    simp [tryEvict, tryEvictLoop, demoEnv, emptyCache, demoCfg, CacheConfig.minFreeBytes]
  have h2 : diskOpens (tryEvict demoEnv demoCfg emptyCache).2.disk
      (pathOf demoCfg.dir "u") = false := by
    simp [tryEvict, tryEvictLoop, demoEnv, emptyCache, demoCfg,
      CacheConfig.minFreeBytes, diskOpens]
  exact ⟨⟨by decide, h1, h2⟩,
    claim_C4_failed_clone_leaves_directory demoEnv demoCfg emptyCache "u"
      (by decide) h1 h2⟩

/-- C10: a Put whose key is already in the index returns on the hit path:
no filesystem call at all (no Stat, no PlainOpen, no re-clone), the only
state change is the node's promotion to the front, and the result is the
node found in the sequence; and a Put miss whose eviction succeeds leaves
the key in the index whatever the mkdir/clone outcomes — in particular
after a failed clone — so every subsequent Put of that URL takes the hit
path. -/
theorem claim_C10_hit_skips_disk_checks (env : DiskEnv) (c : CacheConfig) :
    (∀ (s : CacheState) (key : String) (mk cl : Bool),
        s.hm.contains key = true →
        (put env c s key mk cl).trace = [] ∧
        (put env c s key mk cl).state = { s with dll := moveToFront key s.dll } ∧
        ∀ e, s.dll.find? (fun x => x.key == key) = some e →
          (put env c s key mk cl).result = .ok e) ∧
    (∀ (s : CacheState) (key : String) (mk cl : Bool),
        s.hm.contains key = false →
        (tryEvict env c s).1 = none →
        (put env c s key mk cl).state.hm.contains key = true) := by
  constructor
  · intro s key mk cl hk
    unfold put
    rw [if_pos hk]
    refine ⟨rfl, rfl, ?_⟩
    intro e hfind
    simp [hfind]
  · intro s key mk cl hmiss hevict
    unfold put
    rw [if_neg (by simpa using hmiss)]
    rcases htv : tryEvict env c s with ⟨err, s1⟩
    rw [htv] at hevict
    dsimp only at hevict
    subst hevict
    dsimp only
    split
    · split
      · simp
      · simp [putCloneTail_hm]
    · simp [putCloneTail_hm]

/-- Witness for C10: a hit on the stale entry left by a failed clone, and
the miss of the failed clone itself leaving its key in the index. -/
theorem claim_C10_hit_skips_disk_checks_witness :
    ((put demoEnv demoCfg staleEntryCache "u" true true).trace = [] ∧
     (put demoEnv demoCfg staleEntryCache "u" true true).state =
       { staleEntryCache with dll := moveToFront "u" staleEntryCache.dll } ∧
     (put demoEnv demoCfg staleEntryCache "u" true true).result =
       .ok ⟨"u", pathOf "cache" "u"⟩) ∧
    (put demoEnv demoCfg emptyCache "u" true false).state.hm.contains "u" = true := by
  have h := claim_C10_hit_skips_disk_checks demoEnv demoCfg
  have h1 := h.1 staleEntryCache "u" true true (by decide)
  refine ⟨⟨h1.1, h1.2.1, h1.2.2 ⟨"u", pathOf "cache" "u"⟩ (by decide)⟩, ?_⟩
  exact h.2 emptyCache "u" true false (by decide)
    (by simp [tryEvict, tryEvictLoop, demoEnv, emptyCache, demoCfg,
      CacheConfig.minFreeBytes])


/-- Invariant of the author-pass fold: the statement stream and the
ordered unique list both grow by the first-seen-order of the remaining
emails not already in the set. -/
theorem authorPass_foldl (l : List Commit) : ∀ (st : AuthorPassState),
    (l.foldl authorPassStep st).stmtEmails
      = st.stmtEmails ++ firstSeenAux st.authorEmailSet (l.map Commit.authorEmail) ∧
    (l.foldl authorPassStep st).uniqueAuthorEmails
      = st.uniqueAuthorEmails ++ firstSeenAux st.authorEmailSet (l.map Commit.authorEmail) := by
  induction l with
  | nil => intro st; simp [firstSeenAux]
  | cons cm rest ih =>
    intro st
    by_cases hc : st.authorEmailSet.contains cm.authorEmail = true
    · have hstep : authorPassStep st cm = st := by
        unfold authorPassStep; rw [if_pos hc]
      simp only [List.foldl_cons, hstep, List.map_cons, firstSeenAux, hc, if_pos]
      exact ih st
    · have hc' : st.authorEmailSet.contains cm.authorEmail = false := by simpa using hc
      have hstep : authorPassStep st cm =
          ⟨st.uniqueAuthorEmails ++ [cm.authorEmail],
           cm.authorEmail :: st.authorEmailSet,
           st.stmtEmails ++ [cm.authorEmail]⟩ := by
        unfold authorPassStep; rw [if_neg hc]
      obtain ⟨h1, h2⟩ := ih ⟨st.uniqueAuthorEmails ++ [cm.authorEmail],
           cm.authorEmail :: st.authorEmailSet,
           st.stmtEmails ++ [cm.authorEmail]⟩
      simp only [List.foldl_cons, hstep, List.map_cons, firstSeenAux, hc',
        Bool.false_eq_true, if_false]
      constructor
      · rw [h1]; simp
      · rw [h2]; simp

/-- The fold-side first-seen recursion agrees with the spec-side
first-appearance order. -/
theorem firstSeenAux_eq_spec : ∀ (l seen : List String),
    firstSeenAux seen l = specFirstSeenOrder (l.filter (fun x => !seen.contains x)) := by
  intro l
  induction l with
  | nil => intro seen; simp [firstSeenAux, specFirstSeenOrder]
  | cons e rest ih =>
    intro seen
    by_cases hc : seen.contains e = true
    · simp only [firstSeenAux, hc, if_pos, List.filter_cons, Bool.not_true,
        Bool.false_eq_true, if_false]
      exact ih seen
    · have hc' : seen.contains e = false := by simpa using hc
      simp only [firstSeenAux, hc', Bool.false_eq_true, if_false, List.filter_cons,
        Bool.not_false, if_true, specFirstSeenOrder]
      rw [ih (e :: seen)]
      congr 1
      rw [List.filter_filter]
      congr 1
      apply List.filter_congr
      intro x _
      rw [List.contains_cons]
      simp only [bne]
      cases x == e <;> cases seen.contains x <;> decide


/-- Multiplicity in a first-seen list: one for a fresh present email,
zero otherwise. -/
theorem count_firstSeenAux (e : String) : ∀ (l seen : List String),
    (firstSeenAux seen l).count e = if e ∈ l ∧ e ∉ seen then 1 else 0 := by
  intro l
  induction l with
  | nil => intro seen; simp [firstSeenAux]
  | cons x rest ih =>
    intro seen
    by_cases hx : seen.contains x = true
    · have hxm : x ∈ seen := by simpa using hx
      simp only [firstSeenAux, hx, if_pos]
      rw [ih seen]
      by_cases hex : e = x
      · subst hex
        simp [hxm]
      · simp [List.mem_cons, hex]
    · have hx' : seen.contains x = false := by simpa using hx
      have hxm : x ∉ seen := by simpa using hx'
      simp only [firstSeenAux, hx', Bool.false_eq_true, if_false]
      rw [List.count_cons]
      rw [ih (x :: seen)]
      by_cases hex : e = x
      · subst hex
        simp [hxm]
      · have hxe : ¬ x = e := fun h => hex h.symm
        simp [List.mem_cons, hex, hxe]

/-- C5: during one ingestion's author pass, each distinct author email of
the commit log is appended to the bulk author insert statement exactly
once (the set suppresses duplicates), and the unique-emails list used for
the id lookup is the distinct emails in order of first appearance in the
log. -/
theorem claim_C5_author_pass_dedup (commits : List Commit) :
    (authorPass commits).stmtEmails
        = specFirstSeenOrder (commits.map Commit.authorEmail) ∧
    (authorPass commits).uniqueAuthorEmails
        = specFirstSeenOrder (commits.map Commit.authorEmail) ∧
    ∀ e, (authorPass commits).stmtEmails.count e
        = if e ∈ commits.map Commit.authorEmail then 1 else 0 := by
  obtain ⟨h1, h2⟩ := authorPass_foldl commits
    { uniqueAuthorEmails := [], authorEmailSet := [], stmtEmails := [] }
  have hspec : firstSeenAux [] (commits.map Commit.authorEmail)
      = specFirstSeenOrder (commits.map Commit.authorEmail) := by
    rw [firstSeenAux_eq_spec]
    congr 1
    apply List.filter_eq_self.mpr
    intro a _
    rfl
  refine ⟨?_, ?_, ?_⟩
  · rw [show (authorPass commits).stmtEmails
        = firstSeenAux [] (commits.map Commit.authorEmail) from by simpa using h1, hspec]
  · rw [show (authorPass commits).uniqueAuthorEmails
        = firstSeenAux [] (commits.map Commit.authorEmail) from by simpa using h2, hspec]
  · intro e
    rw [show (authorPass commits).stmtEmails
        = firstSeenAux [] (commits.map Commit.authorEmail) from by simpa using h1]
    rw [count_firstSeenAux]
    simp


/-- C6: the lower bound passed to both commit-log traversals (author pass
and commit pass) is the stored latest commit date plus exactly one
nanosecond, and no commit at or before the stored date is re-yielded by
the inclusive downstream filter of either traversal. -/
theorem claim_C6_since_is_stored_plus_one (db : List CommitRow) (repoId : Nat)
    (commits : List Commit) :
    (processRepositoryLog db repoId commits).authorPassSince
        = (GetLastCommit db repoId).1 + 1 ∧
    (processRepositoryLog db repoId commits).commitPassSince
        = (GetLastCommit db repoId).1 + 1 ∧
    ∀ cm ∈ commits, cm.committerWhen ≤ (GetLastCommit db repoId).1 →
      cm ∉ (processRepositoryLog db repoId commits).authorPassCommits ∧
      cm ∉ (processRepositoryLog db repoId commits).commitPassCommits := by
  refine ⟨rfl, rfl, ?_⟩
  intro cm _ hle
  have hlt : ¬ ((GetLastCommit db repoId).1 + 1 ≤ cm.committerWhen) := by omega
  constructor <;>
  · intro hin
    simp only [processRepositoryLog, gitLogSince, List.mem_filter,
      decide_eq_true_eq] at hin
    exact hlt hin.2

/-- Witness for C6: over an empty commits table the stored date is the
zero time and a commit at the zero time is excluded from both passes. -/
theorem claim_C6_since_witness :
    ((⟨"h1", "a@x", 0⟩ : Commit) ∈ ([⟨"h1", "a@x", 0⟩] : List Commit)) ∧
    (⟨"h1", "a@x", 0⟩ : Commit).committerWhen ≤ (GetLastCommit [] 7).1 ∧
    ((⟨"h1", "a@x", 0⟩ : Commit) ∉
        (processRepositoryLog [] 7 [⟨"h1", "a@x", 0⟩]).authorPassCommits ∧
     (⟨"h1", "a@x", 0⟩ : Commit) ∉
        (processRepositoryLog [] 7 [⟨"h1", "a@x", 0⟩]).commitPassCommits) :=
  ⟨by decide, by decide,
    (claim_C6_since_is_stored_plus_one [] 7 [⟨"h1", "a@x", 0⟩]).2.2
      ⟨"h1", "a@x", 0⟩ (by decide) (by decide)⟩

/-- Head of the descending sort: an element of the list that bounds every
element from above. -/
theorem sortDesc_max : ∀ (l : List Int), l ≠ [] →
    ∃ x t, sortDesc l = x :: t ∧ x ∈ l ∧ ∀ y ∈ l, y ≤ x := by
  intro l
  induction l with
  | nil => intro h; cases h rfl
  | cons a rest ih =>
    intro _
    by_cases hr : rest = []
    · subst hr
      exact ⟨a, [], rfl, by simp, by simp⟩
    · obtain ⟨x, t, hsort, hxmem, hxmax⟩ := ih hr
      rw [show sortDesc (a :: rest) = insertDesc a (sortDesc rest) from rfl, hsort]
      unfold insertDesc
      by_cases hax : a ≥ x
      · rw [if_pos hax]
        refine ⟨a, x :: t, rfl, by simp, ?_⟩
        intro y hy
        rcases List.mem_cons.mp hy with h | h
        · exact le_of_eq h
        · exact le_trans (hxmax y h) hax
      · rw [if_neg hax]
        refine ⟨x, insertDesc a t, rfl, List.mem_cons_of_mem a hxmem, ?_⟩
        intro y hy
        rcases List.mem_cons.mp hy with h | h
        · exact h ▸ le_of_not_ge hax
        · exact hxmax y h

/-- C7: `GetLastCommit` returns a nil error in every case; when the repo
has no (dated) commit rows it returns the zero timestamp with no error,
and otherwise its first component is the most recent stored commit date
of the repository. -/
theorem claim_C7_get_last_commit (db : List CommitRow) (repoId : Nat) :
    (GetLastCommit db repoId).2 = none ∧
    (commitDatesOf db repoId = [] → GetLastCommit db repoId = (0, none)) ∧
    (commitDatesOf db repoId ≠ [] →
      (GetLastCommit db repoId).1 ∈ commitDatesOf db repoId ∧
      ∀ d ∈ commitDatesOf db repoId, d ≤ (GetLastCommit db repoId).1) := by
  refine ⟨?_, ?_, ?_⟩
  · unfold GetLastCommit
    cases getLastCommitQuery db repoId <;> rfl
  · intro hnil
    unfold GetLastCommit getLastCommitQuery
    rw [hnil]
    rfl
  · intro hne
    obtain ⟨x, t, hsort, hxmem, hxmax⟩ := sortDesc_max (commitDatesOf db repoId) hne
    have hq : getLastCommitQuery db repoId = some x := by
      unfold getLastCommitQuery
      rw [hsort]
      rfl
    have hfst : (GetLastCommit db repoId).1 = x := by
      unfold GetLastCommit
      rw [hq]
    rw [hfst]
    exact ⟨hxmem, hxmax⟩

/-- Witness for C7: evaluated over the demo table for an absent repo (9)
and a repo with rows (7). -/
theorem claim_C7_get_last_commit_witness :
    ((commitDatesOf demoDb 9 = [] ∧ GetLastCommit demoDb 9 = (0, none)) ∧
     (GetLastCommit demoDb 9).2 = none) ∧
    (commitDatesOf demoDb 7 ≠ [] ∧
     ((GetLastCommit demoDb 7).1 ∈ commitDatesOf demoDb 7 ∧
      ∀ d ∈ commitDatesOf demoDb 7, d ≤ (GetLastCommit demoDb 7).1)) :=
  ⟨⟨⟨by decide, (claim_C7_get_last_commit demoDb 9).2.1 (by decide)⟩,
    (claim_C7_get_last_commit demoDb 9).1⟩,
   ⟨by decide, (claim_C7_get_last_commit demoDb 7).2.2 (by decide)⟩⟩


/-- C8: the claim says archived repositories are filtered out when
`archives` is false.  `FilterArchivedRepos` compares the `Archived`
pointer to the address of its own local `falseVal`, which no repository
can hold, so it keeps every repository: the filter is the identity on any
list whose `Archived` allocations differ from `&falseVal` — on the
package's own test fixture (10 repos, 2 archived) it keeps all 10 where
the test (and the spec) expects 8. -/
theorem claim_C8_archived_filter_filters_nothing :
    (∀ (falseAddr : Nat) (repos : List GithubRepo),
        (∀ r ∈ repos, r.archivedAddr ≠ falseAddr) →
        FilterArchivedRepos falseAddr repos = repos) ∧
    (FilterArchivedRepos 0 (createRepoList "open-sauced" 10 2)).length = 10 ∧
    (specFilterArchived (createRepoList "open-sauced" 10 2)).length = 8 ∧
    FilterArchivedRepos 0 (createRepoList "open-sauced" 10 2)
      ≠ specFilterArchived (createRepoList "open-sauced" 10 2) := by
  refine ⟨?_, by decide, by decide, by decide⟩
  intro falseAddr repos hfresh
  unfold FilterArchivedRepos
  apply List.filter_eq_self.mpr
  intro r hr
  simpa using hfresh r hr

/-- Witness for C8: the pointer-freshness hypothesis discharged on a
concrete repository list. -/
theorem claim_C8_archived_filter_witness :
    (∀ r ∈ createRepoList "open-sauced" 3 1, r.archivedAddr ≠ 0) ∧
    FilterArchivedRepos 0 (createRepoList "open-sauced" 3 1)
      = createRepoList "open-sauced" 3 1 :=
  ⟨by decide,
    claim_C8_archived_filter_filters_nothing.1 0 (createRepoList "open-sauced" 3 1)
      (by decide)⟩

/-- C9: the claim says a wait=true request whose synchronous ingestion
fails is answered with status 500, and a wait=false request is answered
202 with background processing.  The handler writes 202 before examining
`wait`, so the later `http.Error(..., 500)` is a superfluous second
`WriteHeader`: the effective status of the failing synchronous request is
202, not 500.  The wait=false half of the claim does hold. -/
theorem claim_C9_sync_failure_still_202 :
    effectiveStatus (handleBakeSingle true true) = 202 ∧
    effectiveStatus (handleBakeSingle true true) ≠ 500 ∧
    500 ∈ (handleBakeSingle true true).statusWrites ∧
    (handleBakeSingle false true).background = true ∧
    (handleBakeSingle false false).background = true ∧
    effectiveStatus (handleBakeSingle false false) = 202 ∧
    effectiveStatus (handleBakeSingle true false) = 202 := by
  decide


end Pizza
